import Mathlib

/-!
Verification of the changelog rendering-and-merge subsystem (`src/changelog.rs`
of cocogitto). Strings are modelled as lists of characters; the renderer and
merger are translated function by function from the Rust source, and the
claims about them are proved or refuted below.
-/

set_option autoImplicit false

/-- Strings are modelled as lists of characters (Rust `String` / `&str`). -/
abbrev Str := List Char

/-- Modelled from the spec: the closed, externally defined enumeration of
semantic commit types (`CommitType` in `commit.rs`, an external collaborator
not part of the shown core). The test module of `changelog.rs` exercises
`Feature` and refers to a Tests section; the other variants follow the
conventional-commit categories the spec alludes to. Which variants exist is
irrelevant to the theorems below; only decidable equality is used. -/
inductive CommitType where
  | Feature
  | BugFix
  | Chore
  | Revert
  | Performances
  | Documentation
  | Style
  | Refactoring
  | Test
  | Build
  | Ci
deriving DecidableEq, Repr

/-- Modelled from the spec: the per-type metadata stored in the commit-type
metadata table (`COMMITS_METADATA`, an external collaborator); `changelog.rs`
only reads its `changelog_title` field (line 94). -/
structure CommitMetadata where
  changelog_title : Str
deriving DecidableEq, Repr

/-- Modelled from the spec: the commit message structure of `commit.rs`
(external collaborator), with the fields the test module of `changelog.rs`
constructs: semantic type, optional scope, optional body, optional footer,
free-text description, breaking-change flag. -/
structure CommitMessage where
  commit_type : CommitType
  scope : Option Str
  body : Option Str
  footer : Option Str
  description : Str
  is_breaking_change : Bool
deriving DecidableEq, Repr

/-- Modelled from the spec: the commit record of `commit.rs` (external
collaborator), with the fields the test module of `changelog.rs` constructs.
The commit date is kept as an opaque string. -/
structure Commit where
  oid : Str
  message : CommitMessage
  author : Str
  date : Str
deriving DecidableEq, Repr

/-- Modelled from the spec: `Commit::to_markdown` of `commit.rs` (external
collaborator): one line of commit markdown holding the identifier short-form,
a link built from the identifier, the free-text description and the author
name, exactly the line shape the test at `changelog.rs:184` asserts. Per the
spec the `colored` flag toggles terminal styling only and never the
structural markdown; the styling itself is abstracted away, so both values
of the flag produce the structural line. -/
def Commit.to_markdown (c : Commit) (_colored : Bool) : Str :=
  "[".data ++ c.oid.take 6 ++ "](https://github.com/oknozor/cocogitto/commit/".data
    ++ c.oid ++ ") - ".data ++ c.message.description ++ " - ".data ++ c.author ++ "\n".data

/-- Modelled from the spec: the commit-type metadata table
(`COMMITS_METADATA`), a mapping from semantic type to metadata iterated in a
fixed, externally determined order. Following the spec's design note it is
represented as an explicit association list passed into the renderer. -/
abbrev Table := List (CommitType × CommitMetadata)

/-- `COMMITS_METADATA.get(&commit_type)` (changelog.rs:92): lookup of a
commit type in the metadata table. -/
def lookupMeta (table : Table) (t : CommitType) : Option CommitMetadata :=
  (table.find? (fun p => decide (p.1 = t))).map Prod.snd

/-- The release descriptor (`struct Changelog`, changelog.rs:15). The two
range boundaries are `git2::Oid` content hashes, kept as their 40-character
hexadecimal display strings. -/
structure Changelog where
  «from» : Str
  «to» : Str
  date : Str
  commits : List Commit
  tag_name : Option Str
deriving DecidableEq, Repr

/-- The version title of changelog.rs:76-82: `tag_name` when present,
otherwise the first six characters of each boundary joined by `".."`. -/
def Changelog.versionTitle (d : Changelog) : Str :=
  match d.tag_name with
  | some t => t
  | none => d.«from».take 6 ++ "..".data ++ d.«to».take 6

/-- The release heading pushed first (changelog.rs:84):
`format!("\n## {} - {}\n\n", version_title, self.date)`. -/
def Changelog.releaseHeading (d : Changelog) : Str :=
  "\n## ".data ++ d.versionTitle ++ " - ".data ++ d.date ++ "\n\n".data

/-- The markdown of one non-empty section (changelog.rs:94-98): the section
heading `format!("\n### {}\n\n", metadata.changelog_title)` followed by the
commit lines in their original relative order. -/
def sectionMarkdown (metadata : CommitMetadata) (colored : Bool) (commits : List Commit) : Str :=
  "\n### ".data ++ metadata.changelog_title ++ "\n\n".data
    ++ (commits.map (fun c => c.to_markdown colored)).flatten

/-- The loop of changelog.rs:86-105: for each key of the table in iteration
order, `add_commit_section` drains the commits whose type matches
(`drain_filter`, line 89), looks the type up in the table and unwraps
(line 92, modelled as `none` on lookup failure, the panic of `unwrap`), and
when the drained list is non-empty appends the section markdown. The state
is the remaining commit list plus the output accumulated so far. -/
def renderSections (table : Table) (colored : Bool) :
    List CommitType → List Commit → Str → Option Str
  | [], _, out => some out
  | t :: ts, commits, out =>
    let drained := commits.filter (fun c => decide (c.message.commit_type = t))
    let rest := commits.filter (fun c => !(decide (c.message.commit_type = t)))
    match lookupMeta table t with
    | none => none
    | some metadata =>
      if drained.isEmpty then
        renderSections table colored ts rest out
      else
        renderSections table colored ts rest (out ++ sectionMarkdown metadata colored drained)

/-- `Changelog::markdown` (changelog.rs:73-108): push the release heading,
then run `add_commit_section` over the table keys in iteration order.
`none` models the only way the Rust function can fail to return a string,
the `unwrap` panic of line 92. -/
def Changelog.markdown (table : Table) (d : Changelog) (colored : Bool) : Option Str :=
  renderSections table colored (table.map Prod.fst) d.commits d.releaseHeading

/-- The partition the drain loop of `Changelog::markdown` performs, as data:
for each table key in iteration order, the commits of the remaining list
whose type matches, the remainder flowing into the later keys. The rendered
output emits, in this order, exactly the non-empty entries; the lemma
`renderSections_eq_sections` below ties the two. -/
def sectionsOf : List CommitType → List Commit → List (CommitType × List Commit)
  | [], _ => []
  | t :: ts, commits =>
    (t, commits.filter (fun c => decide (c.message.commit_type = t)))
      :: sectionsOf ts (commits.filter (fun c => !(decide (c.message.commit_type = t))))

/-- The commit types whose section is actually emitted (non-empty drained
list), in emission order. -/
def emittedTypes (keys : List CommitType) (commits : List Commit) : List CommitType :=
  (((sectionsOf keys commits).filter (fun p => !p.2.isEmpty)).map Prod.fst)

/-! ### The merger (`ChangelogWriter`, changelog.rs:9-70) -/

/-- `enum WriterMode` (changelog.rs:9-13). -/
inductive WriterMode where
  | Replace
  | Prepend
  | Append
deriving DecidableEq, Repr

/-- The literal separator marker `"- - -"` the merger splices around. -/
def sep : Str := "- - -".data

/-- The read outcomes of `fs::read_to_string`, as far as the merger can
observe them: success with the file content, or a failure of a given kind. -/
inductive IOErrorKind where
  | notFound
  | permissionDenied
  | otherError
deriving DecidableEq, Repr

/-- Rust `String::insert_str(idx, t)`: splice `t` into `s` at position
`idx`. -/
def insertStr (s : Str) (idx : Nat) (t : Str) : Str :=
  s.take idx ++ t ++ s.drop idx

/-- Rust `str::find(pat)` (changelog.rs:44): the start index of the first
occurrence of `needle` in the haystack, if any. -/
def findIdx (needle : Str) : Str → Option Nat
  | [] => if needle = [] then some 0 else none
  | c :: t =>
    if needle.isPrefixOf (c :: t) then some 0
    else (findIdx needle t).map (· + 1)

/-- Rust `str::rfind(pat)` (changelog.rs:43): the start index of the last
occurrence of `needle` in the haystack, if any. -/
def rfindIdx (needle : Str) : Str → Option Nat
  | [] => if needle = [] then some 0 else none
  | c :: t =>
    match rfindIdx needle t with
    | some i => some (i + 1)
    | none => if needle.isPrefixOf (c :: t) then some 0 else none

/-- `Changelog::default_header` (changelog.rs:110-118). -/
def Changelog.default_header : Str :=
  ("# Changelog\nAll notable changes to this project will be documented in this file. "
    ++ "See [conventional commits](https://www.conventionalcommits.org/) for commit guidelines.\n\n- - -\n").data

/-- `Changelog::default_footer` (changelog.rs:120-123). -/
def Changelog.default_footer : Str :=
  "\nThis changelog was generated by [cocogitto](https://github.com/oknozor/cocogitto).".data

/-- `Changelog::changelog_template` (changelog.rs:125-129): header followed
by footer. -/
def Changelog.changelog_template : Str :=
  Changelog.default_header ++ Changelog.default_footer

/-- The content in hand after the read of changelog.rs:39-40: the file
content when the read succeeded, the freshly generated template on any read
failure (the `unwrap_or_else` closure discards the error value). -/
def contentInHand (read : Except IOErrorKind Str) : Str :=
  match read with
  | .ok s => s
  | .error _ => Changelog.changelog_template

/-- `ChangelogWriter::insert` (changelog.rs:38-61), with the file read
outcome passed in and the rendered fragment (`self.changelog.markdown(false)`
at line 49) passed as `frag`. The separator is located by `rfind` (Append)
or `find` (Prepend); on success the result is the content to be written to
the file, on a missing separator the error message of line 56-59. The
`Replace` arm mirrors the `unreachable!()` of line 45 and is never exercised
by `write`. -/
def insertResult (mode : WriterMode) (path frag : Str) (read : Except IOErrorKind Str) :
    Except Str Str :=
  let changelog_content : Str := contentInHand read
  let separator_idx : Option Nat :=
    match mode with
    | .Append => rfindIdx sep changelog_content
    | .Prepend => findIdx sep changelog_content
    | .Replace => none
  match separator_idx with
  | some idx =>
    let c1 := insertStr changelog_content (idx + 5) frag
    let c2 := insertStr c1 (idx + 5 + frag.length) "\n- - -".data
    .ok c2
  | none =>
    .error ("Cannot find default separator '- - -' in ".data ++ path)

/-- `ChangelogWriter::replace` (changelog.rs:63-69): header, fragment and
footer, written unconditionally. -/
def replaceResult (frag : Str) : Str :=
  Changelog.default_header ++ frag ++ Changelog.default_footer

/-- `ChangelogWriter::write` (changelog.rs:30-36): dispatch on the mode. The
result is the content written to the file on success, or the error
returned. -/
def writeContent (mode : WriterMode) (path frag : Str) (read : Except IOErrorKind Str) :
    Except Str Str :=
  match mode with
  | .Append => insertResult .Append path frag read
  | .Prepend => insertResult .Prepend path frag read
  | .Replace => .ok (replaceResult frag)

/-- The content of the target file after an insert invocation, given its
content `disk` beforehand: `fs::write` runs only on the success branch
(changelog.rs:52), so on an error the file is untouched. -/
def diskAfterInsert (mode : WriterMode) (path frag : Str) (read : Except IOErrorKind Str)
    (disk : Str) : Str :=
  match insertResult mode path frag read with
  | .ok c => c
  | .error _ => disk

/-- Whether an `Except` result is a success. -/
def exceptIsOk {ε α : Type} : Except ε α → Bool
  | .ok _ => true
  | .error _ => false

/-! ### Occurrence machinery for the separator search -/

/-- `needle` occurs in `hay` starting at position `i`. -/
def occursAt (needle hay : Str) (i : Nat) : Prop :=
  needle.isPrefixOf (hay.drop i) = true

instance occursAt.instDecidable (needle hay : Str) (i : Nat) :
    Decidable (occursAt needle hay i) := by
  unfold occursAt; infer_instance

/-- Modelled from the spec: the layout claim C5 makes for Prepend mode, read
literally: after the first occurrence of the separator line comes the
rendered fragment, "followed by a fresh separator line and a newline". It is
compared below with the behaviour of `insertResult`, which inserts the
fragment followed by a newline and then the separator, with nothing after
it. -/
def claimedPrependResult (content frag : Str) : Option Str :=
  (findIdx sep content).map
    (fun i => content.take (i + 5) ++ frag ++ sep ++ "\n".data ++ content.drop (i + 5))

/-! ### Concrete fixtures for witnesses and counterexamples -/

/-- The `from` boundary hash of the test module (changelog.rs:144). -/
def fromHash : Str := "5375e15770ddf8821d0c1ad393d315e243014c15".data

/-- The `to` boundary hash of the test module (changelog.rs:145). -/
def toHash : Str := "35085f20c5293fc8830e4e44a9bb487f98734f73".data

/-- A commit record of a given semantic type, shaped like the ones the test
module constructs. -/
def mkCommit (t : CommitType) (descr auth : Str) : Commit :=
  { oid := fromHash
    message :=
      { commit_type := t
        scope := none
        body := none
        footer := none
        description := descr
        is_breaking_change := false }
    author := auth
    date := "2021-01-01".data }

def featureCommit : Commit := mkCommit CommitType.Feature "this is a commit message".data "coco".data

def testCommit : Commit := mkCommit CommitType.Test "add a test".data "cogi".data

/-- A two-entry metadata table: Features first, Tests second. -/
def sampleTable : Table :=
  [(CommitType.Feature, { changelog_title := "Features".data }),
   (CommitType.Test, { changelog_title := "Tests".data })]

/-- A descriptor whose commit list shows the types in the opposite of the
table order. -/
def sampleChangelog : Changelog :=
  { «from» := fromHash
    «to» := toHash
    date := "2021-01-01".data
    commits := [testCommit, featureCommit]
    tag_name := none }

/-- The sample descriptor with an empty commit list. -/
def emptyChangelog : Changelog :=
  { «from» := fromHash
    «to» := toHash
    date := "2021-01-01".data
    commits := []
    tag_name := none }

/-- The sample descriptor with a tag name. -/
def taggedChangelog : Changelog :=
  { «from» := fromHash
    «to» := toHash
    date := "2021-01-01".data
    commits := [featureCommit]
    tag_name := some "v1.2.3".data }

/-- A one-entry table with no entry for the Test type. -/
def featureOnlyTable : Table :=
  [(CommitType.Feature, { changelog_title := "Features".data })]

/-- A descriptor holding one commit whose type has no entry in
`featureOnlyTable`. -/
def strayTypeChangelog : Changelog :=
  { «from» := fromHash
    «to» := toHash
    date := "2021-01-01".data
    commits := [testCommit]
    tag_name := none }

def samplePath : Str := "CHANGELOG.md".data

/-- An existing file content holding no separator line. -/
def noSepContent : Str := "hello world".data

theorem isPrefixOf_elim {n : Str} : ∀ {h : Str}, n.isPrefixOf h = true ↔ ∃ t, h = n ++ t := by
  induction n with
  | nil =>
    intro h
    simp [List.isPrefixOf]
  | cons a as ih =>
    intro h
    cases h with
    | nil =>
      simp [List.isPrefixOf]
    | cons b bs =>
      simp only [List.isPrefixOf, Bool.and_eq_true, beq_iff_eq]
      constructor
      · rintro ⟨rfl, hp⟩
        obtain ⟨t, rfl⟩ := ih.mp hp
        exact ⟨t, rfl⟩
      · rintro ⟨t, ht⟩
        cases ht
        exact ⟨rfl, ih.mpr ⟨t, rfl⟩⟩

theorem occursAt_iff {n h : Str} {i : Nat} : occursAt n h i ↔ ∃ t, h.drop i = n ++ t :=
  isPrefixOf_elim

theorem occursAt_decomp {n h : Str} {i : Nat} (hc : occursAt n h i) :
    h = h.take i ++ n ++ h.drop (i + n.length) := by
  obtain ⟨t, ht⟩ := occursAt_iff.mp hc
  have hd : h.drop (i + n.length) = t := by
    rw [← List.drop_drop, ht, List.drop_left]
  rw [hd]
  conv_lhs => rw [← List.take_append_drop i h, ht]
  simp [List.append_assoc]

theorem occursAt_le_length {n h : Str} {i : Nat} (hn : n ≠ []) (hc : occursAt n h i) :
    i + n.length ≤ h.length := by
  obtain ⟨t, ht⟩ := occursAt_iff.mp hc
  have hlen : h.length - i = n.length + t.length := by
    have := congrArg List.length ht
    simpa using this
  have hnz : 0 < n.length := List.length_pos.mpr hn
  omega

theorem take_occursAt_eq {n h : Str} {i : Nat} (hn : n ≠ []) (hc : occursAt n h i) :
    h.take (i + n.length) = h.take i ++ n := by
  have hle := occursAt_le_length hn hc
  have hi : i ≤ h.length := by omega
  have hlen : (h.take i ++ n).length = i + n.length := by
    simp [List.length_take]
    omega
  conv_lhs => rw [occursAt_decomp hc]
  rw [← hlen, List.take_left]

theorem findIdx_eq_none {n h : Str} (e : findIdx n h = none) : ∀ j, ¬ occursAt n h j := by
  induction h with
  | nil =>
    intro j hj
    have hn : n ≠ [] := by
      intro hn
      simp [findIdx, hn] at e
    obtain ⟨t, ht⟩ := occursAt_iff.mp hj
    simp at ht
    exact hn ht.1
  | cons c t ih =>
    intro j hj
    by_cases hp : n.isPrefixOf (c :: t) = true
    · simp [findIdx, hp] at e
    · simp [findIdx, hp] at e
      cases j with
      | zero => exact hp hj
      | succ j => exact ih e j hj

theorem findIdx_eq_some {n h : Str} : ∀ {i : Nat}, findIdx n h = some i →
    occursAt n h i ∧ ∀ j, j < i → ¬ occursAt n h j := by
  induction h with
  | nil =>
    intro i e
    by_cases hn : n = []
    · subst hn
      simp [findIdx] at e
      subst e
      exact ⟨by simp [occursAt, List.isPrefixOf], by omega⟩
    · simp [findIdx, hn] at e
  | cons c t ih =>
    intro i e
    by_cases hp : n.isPrefixOf (c :: t) = true
    · simp [findIdx, hp] at e
      subst e
      exact ⟨hp, by omega⟩
    · simp [findIdx, hp] at e
      obtain ⟨i', hi', rfl⟩ := e
      obtain ⟨h1, h2⟩ := ih hi'
      refine ⟨h1, ?_⟩
      intro j hj
      cases j with
      | zero => exact hp
      | succ j => exact h2 j (by omega)

theorem rfindIdx_eq_none {n h : Str} (e : rfindIdx n h = none) : ∀ j, ¬ occursAt n h j := by
  induction h with
  | nil =>
    intro j hj
    have hn : n ≠ [] := by
      intro hn
      simp [rfindIdx, hn] at e
    obtain ⟨t, ht⟩ := occursAt_iff.mp hj
    simp at ht
    exact hn ht.1
  | cons c t ih =>
    intro j hj
    rcases hr : rfindIdx n t with _ | i
    · simp [rfindIdx, hr] at e
      cases j with
      | zero => exact e (by simpa [occursAt] using hj)
      | succ j => exact ih hr j hj
    · simp [rfindIdx, hr] at e

theorem rfindIdx_eq_some {n h : Str} : ∀ {i : Nat}, rfindIdx n h = some i →
    occursAt n h i ∧ ∀ j, j ≤ h.length → occursAt n h j → j ≤ i := by
  induction h with
  | nil =>
    intro i e
    by_cases hn : n = []
    · subst hn
      simp [rfindIdx] at e
      subst e
      refine ⟨by simp [occursAt, List.isPrefixOf], ?_⟩
      intro j hj _
      simpa using hj
    · simp [rfindIdx, hn] at e
  | cons c t ih =>
    intro i e
    rcases hr : rfindIdx n t with _ | i'
    · simp [rfindIdx, hr] at e
      obtain ⟨hp, rfl⟩ := e
      refine ⟨by simpa [occursAt] using hp, ?_⟩
      intro j _ hj
      cases j with
      | zero => omega
      | succ j => exact absurd hj (rfindIdx_eq_none hr j)
    · simp [rfindIdx, hr] at e
      obtain ⟨h1, h2⟩ := ih hr
      subst e
      refine ⟨h1, ?_⟩
      intro j hjl hj
      cases j with
      | zero => omega
      | succ j =>
        have := h2 j (by simpa using hjl) hj
        omega

theorem findIdx_isSome_of_occursAt {n h : Str} {i : Nat} (hc : occursAt n h i) :
    (findIdx n h).isSome = true := by
  rcases e : findIdx n h with _ | j
  · exact absurd hc (findIdx_eq_none e i)
  · rfl

/-- The double `insert_str` of changelog.rs:50-51, evaluated: given an
occurrence of the separator at `i`, the content splits as
`take i ++ sep ++ drop (i+5)` and the written content is the same split with
the fragment and `"\n- - -"` spliced in right after the separator. -/
theorem insertStr_splice {content frag : Str} {i : Nat} (hc : occursAt sep content i) :
    insertStr (insertStr content (i + 5) frag) (i + 5 + frag.length) "\n- - -".data
      = content.take i ++ sep ++ frag ++ "\n- - -".data ++ content.drop (i + 5) := by
  have hsep : sep.length = 5 := rfl
  have hne : sep ≠ [] := by decide
  have hle : i + 5 ≤ content.length := by
    have := occursAt_le_length hne hc
    omega
  have htake : content.take (i + 5) = content.take i ++ sep := by
    have := take_occursAt_eq hne hc
    rwa [hsep] at this
  have hlen1 : (content.take i ++ sep).length = i + 5 := by
    simp [List.length_take, hsep]
    omega
  have h1 : insertStr content (i + 5) frag
      = (content.take i ++ sep ++ frag) ++ content.drop (i + 5) := by
    simp [insertStr, htake, List.append_assoc]
  have hlen2 : (content.take i ++ sep ++ frag).length = i + 5 + frag.length := by
    simp [List.length_append, List.length_take, hsep]
    omega
  rw [h1]
  unfold insertStr
  rw [← hlen2, List.take_left, List.drop_left]

/-! ### Renderer lemmas -/

theorem lookupMeta_isSome_of_mem {table : Table} {t : CommitType}
    (h : t ∈ table.map Prod.fst) : (lookupMeta table t).isSome = true := by
  induction table with
  | nil => simp at h
  | cons p ps ih =>
    by_cases hp : p.1 = t
    · simp [lookupMeta, List.find?, hp]
    · have ht : t ∈ ps.map Prod.fst := by
        simp at h
        rcases h with h | h
        · exact absurd h.symm hp
        · simpa using h
      have := ih ht
      simpa [lookupMeta, List.find?, hp] using this

/-- The rendered text contributed by the sections of a partition: in order,
the markdown of each non-empty section. -/
def renderedSections (table : Table) (colored : Bool)
    (secs : List (CommitType × List Commit)) : Str :=
  (secs.filterMap (fun p =>
    if p.2.isEmpty then none
    else (lookupMeta table p.1).map (fun m => sectionMarkdown m colored p.2))).flatten

/-- The drain loop and the partition agree: when every key is present in the
table, `renderSections` succeeds and appends to the accumulator exactly the
rendered non-empty sections of `sectionsOf`, in order. -/
theorem renderSections_eq_sections (table : Table) (colored : Bool) :
    ∀ (keys : List CommitType) (commits : List Commit) (out : Str),
    (∀ t ∈ keys, (lookupMeta table t).isSome = true) →
    renderSections table colored keys commits out
      = some (out ++ renderedSections table colored (sectionsOf keys commits)) := by
  intro keys
  induction keys with
  | nil =>
    intro commits out _
    simp [renderSections, sectionsOf, renderedSections]
  | cons t ts ih =>
    intro commits out h
    obtain ⟨m, hm⟩ := Option.isSome_iff_exists.mp (h t (by simp))
    have hts : ∀ u ∈ ts, (lookupMeta table u).isSome = true := by
      intro u hu
      exact h u (by simp [hu])
    by_cases he :
        (commits.filter (fun c => decide (c.message.commit_type = t))).isEmpty = true
    · rw [show renderSections table colored (t :: ts) commits out
          = renderSections table colored ts
              (commits.filter (fun c => !(decide (c.message.commit_type = t)))) out by
        simp [renderSections, hm, he]]
      rw [ih _ out hts]
      have he' := List.isEmpty_iff.mp he
      simp [sectionsOf, renderedSections, List.filterMap_cons, he']
    · rw [show renderSections table colored (t :: ts) commits out
          = renderSections table colored ts
              (commits.filter (fun c => !(decide (c.message.commit_type = t))))
              (out ++ sectionMarkdown m colored
                (commits.filter (fun c => decide (c.message.commit_type = t)))) by
        simp [renderSections, hm, he]]
      rw [ih _ _ hts]
      have he' : commits.filter (fun c => decide (c.message.commit_type = t)) ≠ [] :=
        fun hnil => he (by simp [hnil])
      simp [sectionsOf, renderedSections, List.filterMap_cons, he', hm, List.append_assoc]

/-- `Changelog::markdown` never fails to return a string: the keys handed to
`add_commit_section` come from iterating the very table the `unwrap` of
line 92 consults, so the lookup always succeeds. -/
theorem markdown_eq_sections (table : Table) (d : Changelog) (colored : Bool) :
    Changelog.markdown table d colored
      = some (d.releaseHeading
          ++ renderedSections table colored (sectionsOf (table.map Prod.fst) d.commits)) := by
  exact renderSections_eq_sections table colored _ d.commits d.releaseHeading
    (fun t ht => lookupMeta_isSome_of_mem ht)

theorem sectionsOf_fst : ∀ (keys : List CommitType) (cs : List Commit),
    (sectionsOf keys cs).map Prod.fst = keys := by
  intro keys
  induction keys with
  | nil => intro cs; simp [sectionsOf]
  | cons t ts ih => intro cs; simp [sectionsOf, ih]

theorem sectionsOf_homogeneous : ∀ (keys : List CommitType) (cs : List Commit),
    ∀ p ∈ sectionsOf keys cs, ∀ c ∈ p.2, c.message.commit_type = p.1 := by
  intro keys
  induction keys with
  | nil => intro cs p hp; simp [sectionsOf] at hp
  | cons t ts ih =>
    intro cs p hp c hc
    simp only [sectionsOf, List.mem_cons] at hp
    rcases hp with rfl | hp
    · have := List.mem_filter.mp hc
      simpa using this.2
    · exact ih _ p hp c hc

theorem sectionsOf_flatten_perm : ∀ (keys : List CommitType) (cs : List Commit),
    (∀ c ∈ cs, c.message.commit_type ∈ keys) →
    (((sectionsOf keys cs).map Prod.snd).flatten).Perm cs := by
  intro keys
  induction keys with
  | nil =>
    intro cs h
    cases cs with
    | nil => simp [sectionsOf]
    | cons c cs => exact absurd (h c (by simp)) (by simp)
  | cons t ts ih =>
    intro cs h
    simp only [sectionsOf, List.map_cons, List.flatten_cons]
    have hrest : ∀ c ∈ cs.filter (fun c => !(decide (c.message.commit_type = t))),
        c.message.commit_type ∈ ts := by
      intro c hc
      obtain ⟨hmem, hne⟩ := List.mem_filter.mp hc
      have := h c hmem
      simp at hne
      simpa [hne] using this
    have hperm := ih _ hrest
    exact (List.Perm.append_left _ hperm).trans (List.filter_append_perm _ cs)

theorem renderedSections_nil_commits (table : Table) (colored : Bool) :
    ∀ keys : List CommitType, renderedSections table colored (sectionsOf keys []) = [] := by
  intro keys
  induction keys with
  | nil => simp [sectionsOf, renderedSections]
  | cons t ts ih =>
    simpa [sectionsOf, renderedSections, List.filterMap_cons] using ih

theorem emittedTypes_sublist (keys : List CommitType) (cs : List Commit) :
    (emittedTypes keys cs).Sublist keys := by
  have h1 : (((sectionsOf keys cs).filter (fun p => !p.2.isEmpty)).map Prod.fst).Sublist
      ((sectionsOf keys cs).map Prod.fst) :=
    List.Sublist.map Prod.fst (List.filter_sublist _)
  rw [sectionsOf_fst] at h1
  exact h1

theorem emittedTypes_perm_invariant :
    ∀ (keys : List CommitType) (cs cs' : List Commit), cs.Perm cs' →
    emittedTypes keys cs = emittedTypes keys cs' := by
  intro keys
  induction keys with
  | nil => intro cs cs' _; rfl
  | cons t ts ih =>
    intro cs cs' hp
    have hfil := hp.filter (fun c => decide (c.message.commit_type = t))
    have hrest := hp.filter (fun c => !(decide (c.message.commit_type = t)))
    have hrec := ih _ _ hrest
    by_cases he : (cs.filter (fun c => decide (c.message.commit_type = t))).isEmpty = true
    · have he2 : (cs'.filter (fun c => decide (c.message.commit_type = t))).isEmpty = true := by
        rw [List.isEmpty_iff] at he ⊢
        rw [he] at hfil
        exact (hfil.symm.eq_nil)
      simpa [emittedTypes, sectionsOf, he, he2] using hrec
    · have he2 : ¬(cs'.filter (fun c => decide (c.message.commit_type = t))).isEmpty = true := by
        intro h2
        apply he
        rw [List.isEmpty_iff] at h2 ⊢
        rw [h2] at hfil
        exact hfil.eq_nil
      simpa [emittedTypes, sectionsOf, he, he2] using hrec

theorem emittedTypes_not_mem :
    ∀ (keys : List CommitType) (cs : List Commit) (t : CommitType),
    (∀ c ∈ cs, ¬(c.message.commit_type = t)) → t ∉ emittedTypes keys cs := by
  intro keys
  induction keys with
  | nil => intro cs t _; simp [emittedTypes, sectionsOf]
  | cons k ks ih =>
    intro cs t h
    have hsub : ∀ c ∈ cs.filter (fun c => !(decide (c.message.commit_type = k))),
        ¬(c.message.commit_type = t) := by
      intro c hc
      exact h c (List.mem_filter.mp hc).1
    by_cases he : (cs.filter (fun c => decide (c.message.commit_type = k))).isEmpty = true
    · simpa [emittedTypes, sectionsOf, he] using ih _ t hsub
    · have hne : cs.filter (fun c => decide (c.message.commit_type = k)) ≠ [] := by
        intro h2
        exact he (by simp [h2])
      obtain ⟨c, hc⟩ := List.exists_mem_of_ne_nil _ hne
      obtain ⟨hcs, hck⟩ := List.mem_filter.mp hc
      have hkt : ¬(k = t) := by
        intro hkt
        apply h c hcs
        simp at hck
        rw [hck, hkt]
      intro hmem
      simp [emittedTypes, sectionsOf, he] at hmem
      rcases hmem with hmem | hmem
      · exact hkt hmem.symm
      · exact ih _ t hsub (by simpa [emittedTypes] using hmem)

theorem not_mem_sections_of_not_mem_keys {keys : List CommitType} {cs : List Commit}
    {c : Commit} (h : c.message.commit_type ∉ keys) :
    c ∉ ((sectionsOf keys cs).map Prod.snd).flatten := by
  intro hc
  rw [List.mem_flatten] at hc
  obtain ⟨l, hl, hcl⟩ := hc
  obtain ⟨p, hp, rfl⟩ := List.mem_map.mp hl
  have htype := sectionsOf_homogeneous keys cs p hp c hcl
  have hfst : p.1 ∈ (sectionsOf keys cs).map Prod.fst := List.mem_map_of_mem Prod.fst hp
  rw [sectionsOf_fst] at hfst
  rw [← htype] at hfst
  exact h hfst

/-! ### Claim theorems -/

/-- C7: Replace mode output equals the fixed header template, then the
rendered fragment, then the fixed footer template, and does not depend on
any prior content of the target file: for any two read outcomes of the
target file (including absent file), Replace produces the same bytes. -/
theorem claim7_replace_independent (path frag : Str) (r1 r2 : Except IOErrorKind Str) :
    writeContent WriterMode.Replace path frag r1
      = .ok (Changelog.default_header ++ frag ++ Changelog.default_footer) ∧
    writeContent WriterMode.Replace path frag r1 = writeContent WriterMode.Replace path frag r2 :=
  ⟨rfl, rfl⟩

/-- C8: the release title rendered by `Changelog::markdown` is `tag_name`
verbatim when present; otherwise it is the first 6 characters of the `from`
identifier, `".."`, and the first 6 characters of the `to` identifier; the
rendered output opens with the heading built from that title and the
date. -/
theorem claim8_release_title (table : Table) (d : Changelog) (colored : Bool) :
    (∀ tname, d.tag_name = some tname →
      ∃ rest, Changelog.markdown table d colored
        = some (("\n## ".data ++ tname ++ " - ".data ++ d.date ++ "\n\n".data) ++ rest)) ∧
    (d.tag_name = none →
      ∃ rest, Changelog.markdown table d colored
        = some (("\n## ".data ++ (d.«from».take 6 ++ "..".data ++ d.«to».take 6)
            ++ " - ".data ++ d.date ++ "\n\n".data) ++ rest)) := by
  constructor
  · intro tname ht
    refine ⟨renderedSections table colored (sectionsOf (table.map Prod.fst) d.commits), ?_⟩
    rw [markdown_eq_sections]
    simp [Changelog.releaseHeading, Changelog.versionTitle, ht, List.append_assoc]
  · intro hn
    refine ⟨renderedSections table colored (sectionsOf (table.map Prod.fst) d.commits), ?_⟩
    rw [markdown_eq_sections]
    simp [Changelog.releaseHeading, Changelog.versionTitle, hn, List.append_assoc]

/-- Witness for C8: concrete descriptors, one with a tag name and one
without. -/
theorem claim8_witness :
    (∃ rest, Changelog.markdown sampleTable taggedChangelog false
      = some (("\n## ".data ++ "v1.2.3".data ++ " - ".data ++ taggedChangelog.date
          ++ "\n\n".data) ++ rest)) ∧
    (∃ rest, Changelog.markdown sampleTable sampleChangelog false
      = some (("\n## ".data
          ++ (sampleChangelog.«from».take 6 ++ "..".data ++ sampleChangelog.«to».take 6)
          ++ " - ".data ++ sampleChangelog.date ++ "\n\n".data) ++ rest)) :=
  ⟨(claim8_release_title sampleTable taggedChangelog false).1 "v1.2.3".data rfl,
   (claim8_release_title sampleTable sampleChangelog false).2 rfl⟩

/-- C9: the rendered output consists of the release heading followed by the
non-empty sections in the metadata table's fixed iteration order
(`sectionsOf` walks the table keys in order and `emittedTypes` is a sublist
of the table key order), and the emitted section order is invariant under
any permutation of the descriptor's commit list. -/
theorem claim9_section_order (table : Table) (d : Changelog) (colored : Bool) :
    Changelog.markdown table d colored
      = some (d.releaseHeading
          ++ renderedSections table colored (sectionsOf (table.map Prod.fst) d.commits)) ∧
    (emittedTypes (table.map Prod.fst) d.commits).Sublist (table.map Prod.fst) ∧
    ∀ cs' : List Commit, cs'.Perm d.commits →
      emittedTypes (table.map Prod.fst) cs' = emittedTypes (table.map Prod.fst) d.commits :=
  ⟨markdown_eq_sections table d colored, emittedTypes_sublist _ _,
   fun cs' h => emittedTypes_perm_invariant _ cs' d.commits h⟩

/-- Witness for C9: the sample descriptor lists a Test commit before a
Feature commit, yet the emitted sections follow the table order, and
swapping the two commits leaves the emitted section order unchanged. -/
theorem claim9_witness :
    Changelog.markdown sampleTable sampleChangelog false
      = some (sampleChangelog.releaseHeading
          ++ renderedSections sampleTable false
              (sectionsOf (sampleTable.map Prod.fst) sampleChangelog.commits)) ∧
    (emittedTypes (sampleTable.map Prod.fst) sampleChangelog.commits).Sublist
      (sampleTable.map Prod.fst) ∧
    emittedTypes (sampleTable.map Prod.fst) [featureCommit, testCommit]
      = emittedTypes (sampleTable.map Prod.fst) sampleChangelog.commits :=
  ⟨(claim9_section_order sampleTable sampleChangelog false).1,
   (claim9_section_order sampleTable sampleChangelog false).2.1,
   (claim9_section_order sampleTable sampleChangelog false).2.2 [featureCommit, testCommit]
     (by decide)⟩

/-- C10: a semantic type with zero matching commits produces no section at
all (its type never appears among the emitted sections), and for an empty
commit list the rendered output is exactly the release heading, with no
section headings. -/
theorem claim10_empty_sections (table : Table) (d : Changelog) (colored : Bool) :
    (d.commits = [] → Changelog.markdown table d colored = some d.releaseHeading) ∧
    ∀ t : CommitType, (∀ c ∈ d.commits, ¬(c.message.commit_type = t)) →
      t ∉ emittedTypes (table.map Prod.fst) d.commits := by
  constructor
  · intro h
    rw [markdown_eq_sections, h, renderedSections_nil_commits]
    simp
  · intro t ht
    exact emittedTypes_not_mem _ _ t ht

/-- Witness for C10: the empty-list descriptor renders to the bare release
heading, and a descriptor with only a Feature commit emits no Tests
section. -/
theorem claim10_witness :
    Changelog.markdown sampleTable emptyChangelog false
      = some emptyChangelog.releaseHeading ∧
    CommitType.Test ∉ emittedTypes (sampleTable.map Prod.fst) taggedChangelog.commits :=
  ⟨(claim10_empty_sections sampleTable emptyChangelog false).1 rfl,
   (claim10_empty_sections sampleTable taggedChangelog false).2 CommitType.Test (by decide)⟩

/-- An occurrence of `n` sits right after any prefix `a` in `a ++ n ++ b`. -/
theorem occursAt_append (a n b : Str) : occursAt n (a ++ n ++ b) a.length := by
  unfold occursAt
  rw [List.append_assoc, List.drop_left]
  exact isPrefixOf_elim.mpr ⟨b, rfl⟩

/-- An occurrence of `n` sits at the end of `a ++ n`. -/
theorem occursAt_append_end (a n : Str) : occursAt n (a ++ n) a.length := by
  unfold occursAt
  rw [List.drop_left]
  exact isPrefixOf_elim.mpr ⟨[], by simp⟩

/-- The success branch of `insert` (changelog.rs:48-54), characterized: when
the mode's separator search returns index `i`, the written content is the
original split at the occurrence, with the fragment and `"\n- - -"` spliced
in right after the separator. -/
theorem insertResult_ok_eq (mode : WriterMode) (path frag content : Str) (i : Nat)
    (hocc : occursAt sep content i)
    (hidx : (match mode with
      | WriterMode.Append => rfindIdx sep content
      | WriterMode.Prepend => findIdx sep content
      | WriterMode.Replace => none) = some i) :
    insertResult mode path frag (.ok content)
      = .ok (content.take i ++ sep ++ frag ++ "\n- - -".data ++ content.drop (i + 5)) := by
  have hspl := @insertStr_splice content frag i hocc
  rcases mode with _ | _ | _
  · simp at hidx
  · simp only at hidx
    simp only [insertResult, contentInHand, hidx]
    rw [hspl]
  · simp only at hidx
    simp only [insertResult, contentInHand, hidx]
    rw [hspl]

/-- C1 counterexample: with a table holding only a Features entry, a
descriptor holding one Test-type commit renders without any failure to plain
heading-only output: the commit is silently dropped rather than rejected
with a configuration error. -/
theorem claim1_counterexample :
    Changelog.markdown featureOnlyTable strayTypeChangelog false
      = some strayTypeChangelog.releaseHeading ∧
    strayTypeChangelog.commits ≠ [] ∧
    ∀ c ∈ strayTypeChangelog.commits, c.message.commit_type ∉ featureOnlyTable.map Prod.fst :=
  ⟨rfl, by decide, by decide⟩

/-- C1 as amended: rendering never fails — the `unwrap` of changelog.rs:92
only looks up keys obtained from iterating the table itself, so
`Changelog::markdown` always returns a string — and a commit whose semantic
type has no entry in the metadata table is silently omitted: it lands in
none of the sections of the partition. -/
theorem claim1_unknown_type_silently_dropped (table : Table) (d : Changelog) (colored : Bool) :
    (Changelog.markdown table d colored).isSome = true ∧
    ∀ c ∈ d.commits, c.message.commit_type ∉ table.map Prod.fst →
      c ∉ ((sectionsOf (table.map Prod.fst) d.commits).map Prod.snd).flatten := by
  constructor
  · rw [markdown_eq_sections]
    rfl
  · intro c _ hc
    exact not_mem_sections_of_not_mem_keys hc

/-- Witness for C1: the stray-type descriptor concretely. -/
theorem claim1_witness :
    (Changelog.markdown featureOnlyTable strayTypeChangelog false).isSome = true ∧
    testCommit ∉ ((sectionsOf (featureOnlyTable.map Prod.fst)
      strayTypeChangelog.commits).map Prod.snd).flatten :=
  ⟨(claim1_unknown_type_silently_dropped featureOnlyTable strayTypeChangelog false).1,
   (claim1_unknown_type_silently_dropped featureOnlyTable strayTypeChangelog false).2
     testCommit (by decide) (by decide)⟩

/-- C2: under the descriptor invariant of the spec (every commit type has an
entry in the metadata table), the partition performed by
`Changelog::markdown` is total and disjoint: the concatenation of the
sections is a permutation of the input commit list (no commit lost, none
duplicated), and each section holds only commits of its own type; the
rendered output is the heading plus exactly these sections. -/
theorem claim2_partition_total_disjoint (table : Table) (d : Changelog) (colored : Bool)
    (h : ∀ c ∈ d.commits, c.message.commit_type ∈ table.map Prod.fst) :
    Changelog.markdown table d colored
      = some (d.releaseHeading
          ++ renderedSections table colored (sectionsOf (table.map Prod.fst) d.commits)) ∧
    (((sectionsOf (table.map Prod.fst) d.commits).map Prod.snd).flatten).Perm d.commits ∧
    ∀ p ∈ sectionsOf (table.map Prod.fst) d.commits, ∀ c ∈ p.2, c.message.commit_type = p.1 :=
  ⟨markdown_eq_sections table d colored, sectionsOf_flatten_perm _ _ h,
   sectionsOf_homogeneous _ _⟩

/-- Witness for C2: the sample descriptor concretely. -/
theorem claim2_witness :
    Changelog.markdown sampleTable sampleChangelog false
      = some (sampleChangelog.releaseHeading
          ++ renderedSections sampleTable false
              (sectionsOf (sampleTable.map Prod.fst) sampleChangelog.commits)) ∧
    (((sectionsOf (sampleTable.map Prod.fst) sampleChangelog.commits).map
        Prod.snd).flatten).Perm sampleChangelog.commits :=
  ⟨(claim2_partition_total_disjoint sampleTable sampleChangelog false (by decide)).1,
   (claim2_partition_total_disjoint sampleTable sampleChangelog false (by decide)).2.1⟩

set_option maxRecDepth 8192 in
/-- C3 counterexample: a permission-denied read is not surfaced to the
caller: `insert` proceeds with the substituted template, exactly as for a
missing file, and succeeds. -/
theorem claim3_counterexample :
    exceptIsOk (insertResult WriterMode.Prepend samplePath "F".data
      (.error IOErrorKind.permissionDenied)) = true ∧
    insertResult WriterMode.Prepend samplePath "F".data (.error IOErrorKind.permissionDenied)
      = insertResult WriterMode.Prepend samplePath "F".data (.error IOErrorKind.notFound) :=
  ⟨rfl, rfl⟩

/-- C3 as amended: in Prepend and Append modes every read failure of the
existing changelog file, of any kind (permission denied included), is
substituted with the generated header+footer template; no read error is
surfaced to the caller. -/
theorem claim3_read_error_substituted (mode : WriterMode) (path frag : Str) (e : IOErrorKind) :
    insertResult mode path frag (.error e)
      = insertResult mode path frag (.ok Changelog.changelog_template) :=
  rfl

/-- C4: when the separator does not occur in the content in hand (the
`find` of the separator returns nothing), Prepend and Append return the
error that names the separator and the file path, and the file on disk is
left unchanged. -/
theorem claim4_missing_separator_error (mode : WriterMode) (path frag disk : Str)
    (read : Except IOErrorKind Str)
    (hm : mode = WriterMode.Prepend ∨ mode = WriterMode.Append)
    (hsep : findIdx sep (contentInHand read) = none) :
    insertResult mode path frag read
      = .error ("Cannot find default separator '- - -' in ".data ++ path) ∧
    (findIdx sep ("Cannot find default separator '- - -' in ".data ++ path)).isSome = true ∧
    (findIdx path ("Cannot find default separator '- - -' in ".data ++ path)).isSome = true ∧
    diskAfterInsert mode path frag read disk = disk := by
  have hnone : ∀ j, ¬ occursAt sep (contentInHand read) j := findIdx_eq_none hsep
  have hrf : rfindIdx sep (contentInHand read) = none := by
    rcases e : rfindIdx sep (contentInHand read) with _ | i
    · rfl
    · exact absurd (rfindIdx_eq_some e).1 (hnone i)
  have herr : insertResult mode path frag read
      = .error ("Cannot find default separator '- - -' in ".data ++ path) := by
    rcases hm with rfl | rfl
    · simp [insertResult, hsep]
    · simp [insertResult, hrf]
  refine ⟨herr, ?_, ?_, ?_⟩
  · have hsplit : ("Cannot find default separator '- - -' in ".data : Str) ++ path
        = "Cannot find default separator '".data ++ sep ++ ("' in ".data ++ path) := by
      have : ("Cannot find default separator '- - -' in ".data : Str)
          = "Cannot find default separator '".data ++ sep ++ "' in ".data := rfl
      rw [this]
      simp [List.append_assoc]
    rw [hsplit]
    exact findIdx_isSome_of_occursAt
      (occursAt_append "Cannot find default separator '".data sep ("' in ".data ++ path))
  · exact findIdx_isSome_of_occursAt
      (occursAt_append_end "Cannot find default separator '- - -' in ".data path)
  · simp [diskAfterInsert, herr]

/-- Witness for C4: a concrete file content with no separator line. -/
theorem claim4_witness :
    insertResult WriterMode.Prepend samplePath "F".data (.ok noSepContent)
      = .error ("Cannot find default separator '- - -' in ".data ++ samplePath) ∧
    diskAfterInsert WriterMode.Prepend samplePath "F".data (.ok noSepContent) noSepContent
      = noSepContent :=
  ⟨(claim4_missing_separator_error WriterMode.Prepend samplePath "F".data noSepContent
      (.ok noSepContent) (Or.inl rfl) (by decide)).1,
   (claim4_missing_separator_error WriterMode.Prepend samplePath "F".data noSepContent
      (.ok noSepContent) (Or.inl rfl) (by decide)).2.2.2⟩

/-- C5 counterexample: on the file content `"A- - -B"` with fragment `"F"`,
Prepend produces `"A- - -F\n- - -B"` — the inserted text after the fragment
is a newline and then the separator, with nothing after it — which differs
from the layout the claim describes (fragment, then a fresh separator line,
then a newline): `"A- - -F- - -\nB"`. -/
theorem claim5_counterexample :
    insertResult WriterMode.Prepend samplePath "F".data (.ok "A- - -B".data)
      = .ok "A- - -F\n- - -B".data ∧
    claimedPrependResult "A- - -B".data "F".data = some "A- - -F- - -\nB".data ∧
    ("A- - -F\n- - -B".data : Str) ≠ "A- - -F- - -\nB".data :=
  ⟨rfl, rfl, by decide⟩

/-- C5 as amended: Prepend locates the first occurrence of the separator in
the content and Append the last; each inserts, immediately after that
occurrence, the rendered fragment followed by a newline and a fresh
separator line, with nothing further (the inserted text is the same in both
modes). -/
theorem claim5_insert_after_separator (path frag content : Str) :
    (∀ i, findIdx sep content = some i →
      insertResult WriterMode.Prepend path frag (.ok content)
        = .ok (content.take i ++ sep ++ frag ++ "\n".data ++ sep ++ content.drop (i + 5)) ∧
      occursAt sep content i ∧ ∀ j, j < i → ¬ occursAt sep content j) ∧
    (∀ i, rfindIdx sep content = some i →
      insertResult WriterMode.Append path frag (.ok content)
        = .ok (content.take i ++ sep ++ frag ++ "\n".data ++ sep ++ content.drop (i + 5)) ∧
      occursAt sep content i ∧ ∀ j, occursAt sep content j → j ≤ i) := by
  have hnl : ("\n- - -".data : Str) = "\n".data ++ sep := rfl
  constructor
  · intro i hi
    obtain ⟨hocc, hmin⟩ := findIdx_eq_some hi
    refine ⟨?_, hocc, hmin⟩
    rw [insertResult_ok_eq WriterMode.Prepend path frag content i hocc (by simpa using hi)]
    rw [hnl]
    simp [List.append_assoc]
  · intro i hi
    obtain ⟨hocc, hmax⟩ := rfindIdx_eq_some hi
    refine ⟨?_, hocc, ?_⟩
    · rw [insertResult_ok_eq WriterMode.Append path frag content i hocc (by simpa using hi)]
      rw [hnl]
      simp [List.append_assoc]
    · intro j hj
      have hle := occursAt_le_length (by decide : sep ≠ []) hj
      exact hmax j (by omega) hj

/-- Witness for C5: a content with two separator occurrences; Prepend
splices at the first, Append at the last. -/
theorem claim5_witness :
    insertResult WriterMode.Prepend samplePath "F".data (.ok "X- - -Y- - -Z".data)
      = .ok (("X- - -Y- - -Z".data : Str).take 1 ++ sep ++ "F".data ++ "\n".data ++ sep
          ++ ("X- - -Y- - -Z".data : Str).drop 6) ∧
    insertResult WriterMode.Append samplePath "F".data (.ok "X- - -Y- - -Z".data)
      = .ok (("X- - -Y- - -Z".data : Str).take 7 ++ sep ++ "F".data ++ "\n".data ++ sep
          ++ ("X- - -Y- - -Z".data : Str).drop 12) :=
  ⟨((claim5_insert_after_separator samplePath "F".data "X- - -Y- - -Z".data).1 1 rfl).1,
   ((claim5_insert_after_separator samplePath "F".data "X- - -Y- - -Z".data).2 7 rfl).1⟩

/-- C6: when Prepend or Append succeeds on an existing file, no prior
content is destroyed: the original content splits as `A ++ B` and the
written content is the same `A` and `B` with the rendered fragment and a
fresh separator inserted between them. -/
theorem claim6_no_content_destroyed (mode : WriterMode) (path frag content out : Str)
    (hm : mode = WriterMode.Prepend ∨ mode = WriterMode.Append)
    (h : insertResult mode path frag (.ok content) = .ok out) :
    ∃ A B, content = A ++ B ∧ out = A ++ frag ++ "\n".data ++ sep ++ B := by
  have hnl : ("\n- - -".data : Str) = "\n".data ++ sep := rfl
  have hkey : ∀ i, occursAt sep content i →
      insertResult mode path frag (.ok content)
        = .ok (content.take i ++ sep ++ frag ++ "\n- - -".data ++ content.drop (i + 5)) →
      ∃ A B, content = A ++ B ∧ out = A ++ frag ++ "\n".data ++ sep ++ B := by
    intro i hocc heq
    rw [heq] at h
    have hout : out = content.take i ++ sep ++ frag ++ "\n- - -".data ++ content.drop (i + 5) :=
      (Except.ok.injEq _ _ ▸ h).symm
    refine ⟨content.take i ++ sep, content.drop (i + 5), ?_, ?_⟩
    · have hdec := occursAt_decomp hocc
      simpa [List.append_assoc] using hdec
    · rw [hout, hnl]
      simp [List.append_assoc]
  rcases hm with rfl | rfl
  · rcases e : findIdx sep content with _ | i
    · rw [show insertResult WriterMode.Prepend path frag (.ok content)
          = .error ("Cannot find default separator '- - -' in ".data ++ path) from by
        simp [insertResult, contentInHand, e]] at h
      exact absurd h (by simp)
    · exact hkey i (findIdx_eq_some e).1
        (insertResult_ok_eq WriterMode.Prepend path frag content i (findIdx_eq_some e).1
          (by simpa using e))
  · rcases e : rfindIdx sep content with _ | i
    · rw [show insertResult WriterMode.Append path frag (.ok content)
          = .error ("Cannot find default separator '- - -' in ".data ++ path) from by
        simp [insertResult, contentInHand, e]] at h
      exact absurd h (by simp)
    · exact hkey i (rfindIdx_eq_some e).1
        (insertResult_ok_eq WriterMode.Append path frag content i (rfindIdx_eq_some e).1
          (by simpa using e))

/-- Witness for C6: Prepend on the concrete file `"X- - -Y"`. -/
theorem claim6_witness :
    ∃ A B, ("X- - -Y".data : Str) = A ++ B ∧
      ("X- - -F\n- - -Y".data : Str) = A ++ "F".data ++ "\n".data ++ sep ++ B :=
  claim6_no_content_destroyed WriterMode.Prepend samplePath "F".data "X- - -Y".data
    "X- - -F\n- - -Y".data (Or.inl rfl) rfl
